import Mathlib

/-!
Verification development for the Equity-Pulse chat frontend
(src/frontend/src/components/ChatWidget.tsx and the older variant in
src/frontend/src/api.ts, plus the copy of safeParseJSON in
ToolOutputRenderer).

The embedding models JavaScript runtime values as the inductive type
`JSVal`, the builtin `JSON.parse` as the executable `jsonParse`, and the
ChatWidget stream-processing state machine (`handleSend`'s event handlers,
the `finally`/`catch` blocks, `loadSessionMessages`'s hydration and the
helpers `safeParseJSON` / `formatToolInput`) as pure functions on a
`Message` record.  All definitions are structurally recursive (fuel is used
where JavaScript recursion is unbounded) so that every definition evaluates
on concrete inputs inside the kernel.
-/

/-- Model of a JavaScript runtime value.  Numbers are kept as their source
token text (the code under verification never does arithmetic on them; it
only tests truthiness and converts them back to strings). -/
inductive JSVal where
  | undefined
  | null
  | bool (b : Bool)
  | num (tok : String)
  | str (s : String)
  | arr (elems : List JSVal)
  | obj (fields : List (String × JSVal))

/-- The left-brace character, written by code point. -/
def lbrace : Char := Char.ofNat 123

/-- The right-brace character, written by code point. -/
def rbrace : Char := Char.ofNat 125

/-- JSON insignificant whitespace (space, tab, line feed, carriage return). -/
def isWsC (c : Char) : Bool := c == ' ' || c == '\t' || c == '\n' || c == '\r'

/-- Drop leading JSON whitespace. -/
def skipWs (cs : List Char) : List Char := cs.dropWhile isWsC

/-- Characters treated as whitespace by JavaScript's String.prototype.trim
(the ASCII part, which is all the repository's data contains). -/
def isTrimWs (c : Char) : Bool :=
  c == ' ' || c == '\t' || c == '\n' || c == '\r' || c == '\x0b' || c == '\x0c'

/-- Model of JavaScript String.prototype.trim on character lists. -/
def trimL (cs : List Char) : List Char :=
  ((cs.dropWhile isTrimWs).reverse.dropWhile isTrimWs).reverse

/-- Prefix test on character lists (String.prototype.startsWith). -/
def startsWithL : List Char → List Char → Bool
  | _, [] => true
  | [], _ :: _ => false
  | c :: cs, p :: ps => c == p && startsWithL cs ps

/-- Suffix test on character lists (String.prototype.endsWith). -/
def endsWithL (cs p : List Char) : Bool := startsWithL cs.reverse p.reverse

/-- Value of a hexadecimal digit, if the character is one. -/
def hexVal (c : Char) : Option Nat :=
  if 48 ≤ c.toNat ∧ c.toNat ≤ 57 then some (c.toNat - 48)
  else if 97 ≤ c.toNat ∧ c.toNat ≤ 102 then some (c.toNat - 87)
  else if 65 ≤ c.toNat ∧ c.toNat ≤ 70 then some (c.toNat - 55)
  else none

/-- Decode one escape sequence of a JSON string literal: the character after
the backslash plus the remaining input, returning the decoded character and
the input left over. -/
def escDecode (e : Char) (rest : List Char) : Option (Char × List Char) :=
  if e = '"' then some ('"', rest)
  else if e = '\\' then some ('\\', rest)
  else if e = '/' then some ('/', rest)
  else if e = 'b' then some ('\x08', rest)
  else if e = 'f' then some ('\x0c', rest)
  else if e = 'n' then some ('\n', rest)
  else if e = 'r' then some ('\r', rest)
  else if e = 't' then some ('\t', rest)
  else if e = 'u' then
    match rest with
    | a :: b :: c :: d :: r =>
      match hexVal a, hexVal b, hexVal c, hexVal d with
      | some x, some y, some z, some w =>
        some (Char.ofNat (((x * 16 + y) * 16 + z) * 16 + w), r)
      | _, _, _, _ => none
    | _ => none
  else none

/-- Parse the body of a JSON string literal (the opening quote already
consumed), returning the decoded characters and the input after the closing
quote.  Fueled; any fuel at least the input length suffices. -/
def parseStrBody : Nat → List Char → Option (List Char × List Char)
  | 0, _ => none
  | _ + 1, [] => none
  | fuel + 1, c :: rest =>
    if c = '"' then some ([], rest)
    else if c = '\\' then
      match rest with
      | [] => none
      | e :: rest2 =>
        match escDecode e rest2 with
        | none => none
        | some (d, rest3) =>
          match parseStrBody fuel rest3 with
          | none => none
          | some (s, r) => some (d :: s, r)
    else if c.toNat < 32 then none
    else
      match parseStrBody fuel rest with
      | none => none
      | some (s, r) => some (c :: s, r)

/-- Characters that may occur in a JSON number token. -/
def isNumChar (c : Char) : Bool :=
  c.isDigit || c == '-' || c == '+' || c == '.' || c == 'e' || c == 'E'

/-- Validity of the part of a JSON number after an optional exponent sign:
one or more digits. -/
def validExpDigits (cs : List Char) : Bool := !cs.isEmpty && cs.all Char.isDigit

/-- Validity of the exponent part of a JSON number (empty, or e/E with an
optional sign and digits). -/
def validExp : List Char → Bool
  | [] => true
  | c :: rest =>
    if c = 'e' ∨ c = 'E' then
      match rest with
      | '+' :: r => validExpDigits r
      | '-' :: r => validExpDigits r
      | r => validExpDigits r
    else false

/-- Validity of the fraction-and-exponent part of a JSON number. -/
def validFrac : List Char → Bool
  | '.' :: rest =>
    (match rest with
     | c :: _ => c.isDigit
     | [] => false) && validExp (rest.dropWhile Char.isDigit)
  | cs => validExp cs

/-- Validity of a JSON number after an optional leading minus: an integer
part without leading zeros, then fraction and exponent. -/
def validNumCore : List Char → Bool
  | [] => false
  | c :: rest =>
    if c = '0' then validFrac rest
    else if c.isDigit then validFrac (rest.dropWhile Char.isDigit)
    else false

/-- Validity of a complete JSON number token. -/
def validNum : List Char → Bool
  | [] => false
  | c :: rest => if c = '-' then validNumCore rest else validNumCore (c :: rest)

/-- Consume an expected literal: the input after the given characters, or
`none` when they are not present. -/
def afterLit : List Char → List Char → Option (List Char)
  | [], cs => some cs
  | _ :: _, [] => none
  | p :: ps, c :: cs => if c = p then afterLit ps cs else none

mutual
/-- Parse one JSON value from the input (leading whitespace already
skipped), returning it and the remaining input.  Fueled mutual recursion;
`jsonParse` supplies ample fuel. -/
def parseVal : Nat → List Char → Option (JSVal × List Char)
  | 0, _ => none
  | _ + 1, [] => none
  | fuel + 1, c :: rest =>
    if c = '"' then
      match parseStrBody (rest.length + 1) rest with
      | none => none
      | some (s, r) => some (.str (String.mk s), r)
    else if c = lbrace then parseObjBody fuel (skipWs rest)
    else if c = '[' then parseArrBody fuel (skipWs rest)
    else if c = 't' then
      match afterLit ("rue".data) rest with
      | some r => some (.bool true, r)
      | none => none
    else if c = 'f' then
      match afterLit ("alse".data) rest with
      | some r => some (.bool false, r)
      | none => none
    else if c = 'n' then
      match afterLit ("ull".data) rest with
      | some r => some (.null, r)
      | none => none
    else if c = '-' ∨ c.isDigit then
      match validNum ((c :: rest).takeWhile isNumChar) with
      | true =>
        some (.num (String.mk ((c :: rest).takeWhile isNumChar)), (c :: rest).dropWhile isNumChar)
      | false => none
    else none

/-- Parse the inside of a JSON array (after the opening bracket and
whitespace): either an immediate close or a first element. -/
def parseArrBody : Nat → List Char → Option (JSVal × List Char)
  | 0, _ => none
  | _ + 1, [] => none
  | fuel + 1, c :: rest =>
    if c = ']' then some (.arr [], rest)
    else
      match parseVal fuel (c :: rest) with
      | none => none
      | some (v, r) => parseArrRest fuel [v] (skipWs r)

/-- Parse the remainder of a JSON array after at least one element:
a close bracket or comma-separated further elements. -/
def parseArrRest : Nat → List JSVal → List Char → Option (JSVal × List Char)
  | 0, _, _ => none
  | _ + 1, _, [] => none
  | fuel + 1, acc, c :: rest =>
    if c = ']' then some (.arr acc, rest)
    else if c = ',' then
      match parseVal fuel (skipWs rest) with
      | none => none
      | some (v, r) => parseArrRest fuel (acc ++ [v]) (skipWs r)
    else none

/-- Parse the inside of a JSON object (after the opening brace and
whitespace): either an immediate close or a first member. -/
def parseObjBody : Nat → List Char → Option (JSVal × List Char)
  | 0, _ => none
  | _ + 1, [] => none
  | fuel + 1, c :: rest =>
    if c = rbrace then some (.obj [], rest)
    else
      match parseMember fuel (c :: rest) with
      | none => none
      | some (kv, r) => parseObjRest fuel [kv] (skipWs r)

/-- Parse the remainder of a JSON object after at least one member:
a close brace or comma-separated further members. -/
def parseObjRest : Nat → List (String × JSVal) → List Char → Option (JSVal × List Char)
  | 0, _, _ => none
  | _ + 1, _, [] => none
  | fuel + 1, acc, c :: rest =>
    if c = rbrace then some (.obj acc, rest)
    else if c = ',' then
      match parseMember fuel (skipWs rest) with
      | none => none
      | some (kv, r) => parseObjRest fuel (acc ++ [kv]) (skipWs r)
    else none

/-- Parse one `"key" : value` member of a JSON object. -/
def parseMember : Nat → List Char → Option ((String × JSVal) × List Char)
  | 0, _ => none
  | _ + 1, [] => none
  | fuel + 1, c :: rest =>
    if c = '"' then
      match parseStrBody (rest.length + 1) rest with
      | none => none
      | some (k, r1) =>
        match skipWs r1 with
        | ':' :: r2 =>
          match parseVal fuel (skipWs r2) with
          | none => none
          | some (v, r3) => some ((String.mk k, v), r3)
        | _ => none
    else none
end

/-- Model of JavaScript's JSON.parse applied to a string: parse one value
surrounded by whitespace and require the input to be fully consumed;
`none` models the thrown SyntaxError.  The fuel `2 * length + 4` is enough
for any input because every two recursion levels consume a character. -/
def jsonParse (s : String) : Option JSVal :=
  match parseVal (2 * s.data.length + 4) (skipWs s.data) with
  | none => none
  | some (v, rest) => if skipWs rest = [] then some v else none

mutual
/-- Model of JavaScript string coercion (the ToString operation used by
template literals, `+=` on strings, and JSON.parse's argument coercion). -/
def jsToString : JSVal → String
  | .undefined => "undefined"
  | .null => "null"
  | .bool true => "true"
  | .bool false => "false"
  | .num t => t
  | .str s => s
  | .arr l => String.mk (arrJoinChars l)
  | .obj _ => "[object Object]"

/-- Join the elements of an array with commas, as Array.prototype.toString
does; null and undefined elements contribute nothing. -/
def arrJoinChars : List JSVal → List Char
  | [] => []
  | [.null] => []
  | [.undefined] => []
  | [v] => (jsToString v).data
  | .null :: w :: r => ',' :: arrJoinChars (w :: r)
  | .undefined :: w :: r => ',' :: arrJoinChars (w :: r)
  | v :: w :: r => (jsToString v).data ++ ',' :: arrJoinChars (w :: r)
end

/-- A decimal digit or lowercase hex digit character. -/
def digitChar (n : Nat) : Char :=
  if n < 10 then Char.ofNat (48 + n) else Char.ofNat (87 + n)

/-- Decimal digits of a natural number (fueled division loop). -/
def natDigits : Nat → Nat → List Char
  | 0, _ => []
  | fuel + 1, n => if n < 10 then [digitChar n] else natDigits fuel (n / 10) ++ [digitChar (n % 10)]

/-- Decimal rendering of a natural number. -/
def natToStr (n : Nat) : String := String.mk (natDigits (n + 1) n)

/-- Escape one character for a JSON string literal. -/
def escJsonChar (c : Char) : List Char :=
  if c = '"' then ['\\', '"']
  else if c = '\\' then ['\\', '\\']
  else if c = '\n' then ['\\', 'n']
  else if c = '\r' then ['\\', 'r']
  else if c = '\t' then ['\\', 't']
  else if c = '\x08' then ['\\', 'b']
  else if c = '\x0c' then ['\\', 'f']
  else if c.toNat < 32 then
    ['\\', 'u', '0', '0', digitChar (c.toNat / 16), digitChar (c.toNat % 16)]
  else [c]

/-- Render a JSON string literal with quotes and escapes. -/
def quoteJson (cs : List Char) : List Char :=
  '"' :: (cs.map escJsonChar).flatten ++ ['"']

/-- Join character lists with a separator. -/
def intercalChars (sep : List Char) : List (List Char) → List Char
  | [] => []
  | [x] => x
  | x :: y :: r => x ++ sep ++ intercalChars sep (y :: r)

mutual
/-- Model of JavaScript's JSON.stringify (no indentation argument).
Returns `none` exactly when JSON.stringify returns undefined. -/
def stringifyVal : JSVal → Option String
  | .undefined => none
  | .null => some "null"
  | .bool true => some "true"
  | .bool false => some "false"
  | .num t => some t
  | .str s => some (String.mk (quoteJson s.data))
  | .arr l =>
    some ("[" ++ String.mk (intercalChars [','] (stringifyElems l)) ++ "]")
  | .obj fs =>
    some (String.mk (lbrace :: intercalChars [','] (stringifyFields fs) ++ [rbrace]))

/-- Array elements under JSON.stringify: an element that stringifies to
undefined is rendered as null. -/
def stringifyElems : List JSVal → List (List Char)
  | [] => []
  | v :: vs =>
    (match stringifyVal v with
     | some s => s.data
     | none => "null".data) :: stringifyElems vs

/-- Object members under JSON.stringify: a member whose value stringifies
to undefined is skipped. -/
def stringifyFields : List (String × JSVal) → List (List Char)
  | [] => []
  | (k, v) :: fs =>
    match stringifyVal v with
    | none => stringifyFields fs
    | some sv => (quoteJson k.data ++ ':' :: sv.data) :: stringifyFields fs
end

/-- JSON.stringify as a total function on the values the trace handlers
feed it (they always pass object literals, for which it never returns
undefined). -/
def jsonStringify (v : JSVal) : String := (stringifyVal v).getD "undefined"

/-- Model of the strict equality test `v === "lit"` against a string
literal. -/
def jsStrEq (v : JSVal) (s : String) : Bool :=
  match v with
  | .str t => t.data == s.data
  | _ => false

/-- True when the mantissa (the part before any exponent) of a number token
contains a nonzero digit, i.e. when the numeric value is neither zero nor
NaN. -/
def numHasNonzeroDigit (t : String) : Bool :=
  (t.data.takeWhile (fun c => !(c == 'e' || c == 'E'))).any (fun c => c.isDigit && !(c == '0'))

/-- Model of JavaScript ToBoolean. -/
def jsTruthy : JSVal → Bool
  | .undefined => false
  | .null => false
  | .bool b => b
  | .num t => numHasNonzeroDigit t
  | .str s => !s.data.isEmpty
  | .arr _ => true
  | .obj _ => true

/-- Model of JavaScript falsiness. -/
def jsFalsy (v : JSVal) : Bool := !jsTruthy v

/-- Model of the JavaScript `a || b` operator. -/
def jsOr (a b : JSVal) : JSVal := if jsTruthy a then a else b

/-- Look up a key in an object's field list. -/
def getFieldIn : List (String × JSVal) → List Char → JSVal
  | [], _ => .undefined
  | (k, v) :: fs, key => if k.data == key then v else getFieldIn fs key

/-- Model of JavaScript property access `v.k` (undefined on non-objects and
missing keys). -/
def getField (v : JSVal) (k : String) : JSVal :=
  match v with
  | .obj fs => getFieldIn fs k.data
  | _ => .undefined

/-- Replace or append a key in an object's field list. -/
def setFieldIn : List (String × JSVal) → List Char → JSVal → List (String × JSVal)
  | [], k, x => [(String.mk k, x)]
  | (k0, v0) :: fs, k, x =>
    if k0.data == k then (k0, x) :: fs else (k0, v0) :: setFieldIn fs k x

/-- Model of the object spread update `(spread t) with k: x` used by the
history hydration (identity on non-objects). -/
def setField (v : JSVal) (k : String) (x : JSVal) : JSVal :=
  match v with
  | .obj fs => .obj (setFieldIn fs k.data x)
  | _ => v

/-- Model of Object.entries: fields of an object, indexed elements of an
array, empty for primitives. -/
def jsEntries : JSVal → List (String × JSVal)
  | .obj fs => fs
  | .arr l => l.enum.map (fun p => (natToStr p.1, p.2))
  | _ => []

/-- The recursion guard in safeParseJSON: the parsed string, trimmed, looks
like a JSON object or array. -/
def looksJson (t : String) : Bool :=
  startsWithL (trimL t.data) [lbrace] || startsWithL (trimL t.data) ['[']

/-- Fueled unfolding of safeParseJSON's recursion on strings.  Each
recursive call is on the result of a successful JSON.parse that produced a
string, which theorem jsonParse_str_shorter shows is strictly shorter, so
fuel `s.length + 1` always suffices (see unwrapF_fuel_irrelevant). -/
def unwrapF : Nat → String → JSVal
  | 0, s => .str s
  | fuel + 1, s =>
    match jsonParse s with
    | none => .str s
    | some (.str t) => if looksJson t then unwrapF fuel t else .str t
    | some v => v

/-- safeParseJSON restricted to string inputs. -/
def unwrap (s : String) : JSVal := unwrapF (s.length + 1) s

/-- Model of the helper safeParseJSON from ChatWidget.tsx (lines 44-57)
and its identical copy in ToolOutputRenderer: objects and arrays are
returned as-is; anything else is coerced to a string and JSON.parsed,
recursing while the parse yields a string that looks like JSON; a parse
failure returns the input unchanged. -/
def safeParseJSON : JSVal → JSVal
  | .obj fs => .obj fs
  | .arr l => .arr l
  | .str s => unwrap s
  | v =>
    match jsonParse (jsToString v) with
    | none => v
    | some (.str t) => if looksJson t then unwrap t else .str t
    | some w => w

/-- Drop the last n characters. -/
def dropRightL (l : List Char) (n : Nat) : List Char := l.take (l.length - n)

/-- Model of the fenced-code-block regexes in formatToolInput: strip a
leading three-backtick fence (optionally tagged json) and its closing
fence, trimming the interior. -/
def stripFence (t : List Char) : List Char :=
  if startsWithL t ("```json".data) && endsWithL t ("```".data) && decide (10 ≤ t.length) then
    trimL (dropRightL (t.drop 7) 3)
  else if startsWithL t ("```".data) && endsWithL t ("```".data) && decide (6 ≤ t.length) then
    trimL (dropRightL (t.drop 3) 3)
  else t

/-- Infix test on character lists (String.prototype.includes). -/
def containsSub : List Char → List Char → Bool
  | s, sub =>
    if startsWithL s sub then true
    else
      match s with
      | [] => false
      | _ :: r => containsSub r sub

/-- Render the bullet list for a plan array, as formatToolInput does. -/
def planBullets (items : List JSVal) : String :=
  "**Plan:**\n" ++
    String.mk (intercalChars ['\n'] (items.map (fun p => ('-' :: ' ' :: (jsToString p).data))))

/-- The optional plan suffix of the intent branch of formatToolInput:
empty when plan is falsy, the bullet list when plan is an array, and `none`
when plan is truthy but not an array (the .map call throws and the catch
falls back to returning the raw input). -/
def intentPlanPart (planVal : JSVal) : Option String :=
  if jsTruthy planVal then
    match planVal with
    | .arr items => some (planBullets items)
    | _ => none
  else some ""

/-- Model of formatToolInput from ChatWidget.tsx (lines 337-380): render a
tool invocation's input human-readably. -/
def formatToolInput (tool : String) (input : JSVal) : String :=
  match input with
  | .str s =>
    let contentToParse := stripFence (trimL s.data)
    if startsWithL contentToParse [lbrace] && endsWithL contentToParse [rbrace] then
      match jsonParse (String.mk contentToParse) with
      | some parsed =>
        (match getField parsed "plan" with
         | .arr items => planBullets items
         | planVal =>
           if jsTruthy (getField parsed "intent") then
             match intentPlanPart planVal with
             | some pp => "**Intent:** " ++ jsToString (getField parsed "intent") ++ "\n" ++ pp
             | none => s
           else s)
      | none => s
    else s
  | _ =>
    if jsFalsy input then ""
    else if containsSub tool.data ("search".data) && jsTruthy (getField input "query") then
      "Searching for: \"" ++ jsToString (getField input "query") ++ "\""
    else if jsTruthy (getField input "ticker") then
      "Analyzing ticker: " ++ jsToString (getField input "ticker")
    else if jsTruthy (getField input "url") then
      "Reading URL: " ++ jsToString (getField input "url")
    else
      String.mk
        (intercalChars (", ".data)
          ((jsEntries input).map (fun kv => (kv.1 ++ ": " ++ jsToString kv.2).data)))

/-- The tagged kind of a trace step (the string union of ThoughtStep.type
in ChatWidget.tsx). -/
inductive StepType where
  | thought
  | tool
  | plan
  | query_rewrite
  | image_analysis
  | execution
  | tool_start
  | tool_end
deriving DecidableEq

/-- Lifecycle status of a trace step. -/
inductive StepStatus where
  | running
  | completed
  | failed
deriving DecidableEq

/-- Model of the ThoughtStep record of ChatWidget.tsx.  Optional fields
default to the JavaScript undefined value; the timestamp is omitted (wall
clock time, never consulted by any logic). -/
structure ThoughtStep where
  type : StepType
  content : String
  toolName : JSVal := .undefined
  toolInput : JSVal := .undefined
  toolOutput : JSVal := .undefined
  node : JSVal := .undefined
  status : StepStatus

/-- Model of the Message record of ChatWidget.tsx (the fields the stream
processing reads or writes). -/
structure Message where
  id : String
  role : String
  content : String
  isStreaming : Bool
  thoughts : List ThoughtStep

/-- The streaming assistant placeholder pushed by handleSend before the
fetch (ChatWidget.tsx lines 558-565). -/
def initialAssistantMessage (idStr : String) : Message :=
  { id := idStr, role := "assistant", content := "", isStreaming := true, thoughts := [] }

/-- Apply a function to the last element of a step list, as the indexing
assignments thoughts[thoughts.length - 1] = ... do. -/
def updateLast (f : ThoughtStep → ThoughtStep) : List ThoughtStep → List ThoughtStep
  | [] => []
  | [x] => [f x]
  | x :: y :: r => x :: updateLast f (y :: r)

/-- Handler for a token event (ChatWidget.tsx lines 604-626): append the
payload to the accumulated answer text and, if the last trace step is
running, mark it completed. -/
def applyToken (content : JSVal) (m : Message) : Message :=
  let ts :=
    match m.thoughts.getLast? with
    | some last =>
      if last.status = .running then
        updateLast (fun l => { l with status := .completed }) m.thoughts
      else m.thoughts
    | none => m.thoughts
  { m with content := m.content ++ jsToString content, thoughts := ts }

/-- Handler for a thought event (ChatWidget.tsx lines 627-650): extend a
running thought in place, or push a new running thought. -/
def applyThought (content : JSVal) (m : Message) : Message :=
  match m.thoughts.getLast? with
  | some last =>
    if last.type = .thought ∧ last.status = .running then
      { m with
        thoughts :=
          updateLast (fun l => { l with content := l.content ++ jsToString content }) m.thoughts }
    else
      { m with
        thoughts :=
          m.thoughts ++ [{ type := .thought, content := jsToString content, status := .running }] }
  | none =>
    { m with
      thoughts :=
        m.thoughts ++ [{ type := .thought, content := jsToString content, status := .running }] }

/-- Handler for a tool_start event (ChatWidget.tsx lines 651-666): push a
new running tool step whose content is the formatted input. -/
def applyToolStart (tool input : JSVal) (m : Message) : Message :=
  { m with
    thoughts :=
      m.thoughts ++
        [{ type := .tool
           content := formatToolInput (jsToString tool) input
           toolName := tool
           status := .running }] }

/-- Handler for a tool_end event (ChatWidget.tsx lines 667-680): if the
last step is a running tool step, complete it and attach the output;
otherwise leave the message unchanged. -/
def applyToolEnd (output : JSVal) (m : Message) : Message :=
  match m.thoughts.getLast? with
  | some last =>
    if last.type = .tool ∧ last.status = .running then
      { m with
        thoughts :=
          updateLast (fun l => { l with status := .completed, toolOutput := output }) m.thoughts }
    else m
  | none => m

/-- The four structured trace event kinds handled together by
ChatWidget.tsx lines 681-730. -/
inductive TraceKind where
  | query_rewrite
  | image_analysis
  | plan
  | execution
deriving DecidableEq

/-- The step kind recorded for a structured trace event. -/
def stepTypeOf : TraceKind → StepType
  | .query_rewrite => .query_rewrite
  | .image_analysis => .image_analysis
  | .plan => .plan
  | .execution => .execution

/-- The contentObj constructed for a structured trace event
(ChatWidget.tsx lines 687-700). -/
def contentObjOf (k : TraceKind) (data : JSVal) : JSVal :=
  match k with
  | .query_rewrite =>
    .obj
      [("rewritten_query", getField data "rewritten_query"),
       ("sub_queries", getField data "sub_queries"),
       ("needs_web_search", getField data "needs_web_search")]
  | .image_analysis => .obj [("type", .str "image_analysis"), ("content", getField data "content")]
  | .plan => .obj [("plan", getField data "content")]
  | .execution => .obj [("execution_results", getField data "content")]

/-- Handler for the structured trace events (ChatWidget.tsx lines
681-730): if the last step is a running thought, replace it in place by a
completed step of the event's kind; otherwise append such a step (carrying
the event's node field). -/
def applyTraceEvent (k : TraceKind) (data : JSVal) (m : Message) : Message :=
  let newContent := jsonStringify (contentObjOf k data)
  match m.thoughts.getLast? with
  | some last =>
    if last.type = .thought ∧ last.status = .running then
      { m with
        thoughts :=
          updateLast
            (fun _ => { type := stepTypeOf k, content := newContent, status := .completed })
            m.thoughts }
    else
      { m with
        thoughts :=
          m.thoughts ++
            [{ type := stepTypeOf k
               content := newContent
               node := getField data "node"
               status := .completed }] }
  | none =>
    { m with
      thoughts :=
        m.thoughts ++
          [{ type := stepTypeOf k
             content := newContent
             node := getField data "node"
             status := .completed }] }

/-- Dispatch one decoded stream record to its handler, mirroring the
if/else-if chain of handleSend (ChatWidget.tsx lines 605-730); records of
unknown type are ignored. -/
def processData (data : JSVal) (m : Message) : Message :=
  match getField data "type" with
  | .str "token" => applyToken (getField data "content") m
  | .str "thought" => applyThought (getField data "content") m
  | .str "tool_start" => applyToolStart (getField data "tool") (getField data "input") m
  | .str "tool_end" => applyToolEnd (getField data "output") m
  | .str "query_rewrite" => applyTraceEvent .query_rewrite data m
  | .str "image_analysis" => applyTraceEvent .image_analysis data m
  | .str "plan" => applyTraceEvent .plan data m
  | .str "execution" => applyTraceEvent .execution data m
  | _ => m

/-- Process a sequence of decoded stream records in order. -/
def processEvents (datas : List JSVal) (m : Message) : Message :=
  datas.foldl (fun acc d => processData d acc) m

/-- Split a character list at newlines, as String.prototype.split with
separator a newline does (empty segments included). -/
def splitLines : List Char → List (List Char)
  | [] => [[]]
  | c :: cs =>
    let r := splitLines cs
    if c == '\n' then [] :: r
    else
      match r with
      | [] => [[c]]
      | l :: ls => (c :: l) :: ls

/-- Decode one line of a chunk (ChatWidget.tsx lines 599-602): lines
without the data-colon-space marker are skipped, and a marker line whose
payload fails JSON.parse is swallowed by the catch. -/
def lineToData (line : List Char) : Option JSVal :=
  if startsWithL line ("data: ".data) then jsonParse (String.mk (line.drop 6)) else none

/-- Decode the records of one transport chunk (ChatWidget.tsx lines
594-602): decode the chunk, split it at newlines and parse each marked
line; there is no carry-over between chunks. -/
def chunkToDatas (chunk : String) : List JSVal :=
  (splitLines chunk.data).filterMap lineToData

/-- The full sequence of records decoded from a chunked stream delivery:
chunks are decoded independently and their records concatenated in order.
-/
def streamDatas (chunks : List String) : List JSVal :=
  (chunks.map chunkToDatas).flatten

/-- The generic apology shown on a transport error. -/
def errorText : String := "Sorry, I encountered an error receiving the response."

/-- Model of handleSend's catch block (ChatWidget.tsx lines 738-742): the
assistant message's text content is set to a generic apology and streaming
ends. -/
def applyCatch (m : Message) : Message :=
  { m with content := errorText, isStreaming := false }

/-- Model of handleSend's finally block (ChatWidget.tsx lines 743-748):
the assistant message stops streaming; nothing else is touched. -/
def finalizeMessage (m : Message) : Message :=
  { m with isStreaming := false }

/-- Model of the per-step hydration in loadSessionMessages (ChatWidget.tsx
lines 428-434): a stored tool step with a missing (falsy) content field
but a truthy toolInput gets its content regenerated with formatToolInput,
exactly as the live tool_start handler renders it. -/
def hydrateStoredStep (t : JSVal) : JSVal :=
  if jsStrEq (getField t "type") "tool" && jsFalsy (getField t "content") &&
      jsTruthy (getField t "toolInput") then
    setField t "content"
      (.str (formatToolInput (jsToString (jsOr (getField t "toolName") (.str ""))) (getField t "toolInput")))
  else t

/-- Hydration of a stored message's step list, as loadSessionMessages maps
it. -/
def hydrateStoredThoughts (ts : List JSVal) : List JSVal :=
  ts.map hydrateStoredStep

/-- Number of steps in running state in a step list. -/
def countRunning (ts : List ThoughtStep) : Nat :=
  (ts.filter (fun s => s.status = .running)).length

/-! Concrete stream records and messages used by witnesses and
counterexamples. -/

/-- A thought record whose payload is the opening brace of an in-flight
JSON answer (the spec's raw-thought example). -/
def dThoughtEv : JSVal := .obj [("type", .str "thought"), ("content", .str "\x7b")]

/-- A plan record carrying a one-step plan array. -/
def dPlanEv : JSVal := .obj [("type", .str "plan"), ("content", .arr [.str "step one"])]

/-- A tool_start record for a web search. -/
def dToolStartEv : JSVal :=
  .obj [("type", .str "tool_start"), ("tool", .str "web_search"),
        ("input", .obj [("query", .str "NVDA")])]

/-- A tool_end record. -/
def dToolEndEv : JSVal := .obj [("type", .str "tool_end"), ("output", .str "ok")]

/-- A token record carrying answer text. -/
def dTokenEv : JSVal := .obj [("type", .str "token"), ("content", .str "Buy")]

/-- A message whose only step is a running thought. -/
def mThoughtRunning : Message :=
  { id := "1", role := "assistant", content := "", isStreaming := true,
    thoughts := [{ type := .thought, content := "\x7b", status := .running }] }

/-- A message whose only step is a running tool call. -/
def mToolRunning : Message :=
  { id := "1", role := "assistant", content := "", isStreaming := true,
    thoughts :=
      [{ type := .tool, content := "c", toolName := .str "web_search", status := .running }] }

/-! Helper lemmas about updateLast and countRunning. -/

theorem updateLast_concat (f : ThoughtStep → ThoughtStep) (l : List ThoughtStep)
    (a : ThoughtStep) : updateLast f (l ++ [a]) = l ++ [f a] := by
  induction l with
  | nil => rfl
  | cons x xs ih =>
    cases xs with
    | nil => simp [updateLast]
    | cons y ys => simpa [updateLast] using ih

theorem updateLast_of_getLast? (f : ThoughtStep → ThoughtStep) (l : List ThoughtStep)
    (a : ThoughtStep) (h : l.getLast? = some a) :
    updateLast f l = l.dropLast ++ [f a] := by
  obtain ⟨l', rfl⟩ := List.getLast?_eq_some_iff.mp h
  rw [updateLast_concat, List.dropLast_concat]

theorem updateLast_length (f : ThoughtStep → ThoughtStep) (l : List ThoughtStep) :
    (updateLast f l).length = l.length := by
  induction l with
  | nil => rfl
  | cons x xs ih =>
    cases xs with
    | nil => rfl
    | cons y ys => simpa [updateLast] using ih

theorem countRunning_concat (l : List ThoughtStep) (s : ThoughtStep) :
    countRunning (l ++ [s]) =
      countRunning l + (if s.status = .running then 1 else 0) := by
  unfold countRunning
  rw [List.filter_append]
  by_cases h : s.status = .running
  · simp [h]
  · simp [h]

/-- C1 counterexample.  The claim asserts that at any instant at most one
step of a message is running, and in particular that a tool_start arriving
while a thought is running leaves at most one running step.  Feeding
exactly that sequence (a thought, then a tool_start) to a fresh assistant
message leaves two running steps. -/
theorem c1_single_running_cex :
    ¬ countRunning
        (processEvents [dThoughtEv, dToolStartEv] (initialAssistantMessage "1")).thoughts ≤ 1 := by
  decide

/-- C1 (amended).  The tool_start handler appends a fresh running tool
step and completes nothing, so every tool_start event increases the number
of running steps of the message by exactly one; in particular, arriving
while a thought is still running it leaves two running steps, and the
at-most-one-running-step invariant does not hold. -/
theorem c1_tool_start_adds_running (tool input : JSVal) (m : Message) :
    countRunning (applyToolStart tool input m).thoughts = countRunning m.thoughts + 1 := by
  unfold applyToolStart
  rw [countRunning_concat]
  rfl

/-- C2.  Processing a structured trace event (plan, query_rewrite,
image_analysis or execution): when the last step is a running thought it
is replaced in place by a single completed step of the corresponding kind
(the list keeps its length, so the raw thought and the structured step
never both appear); otherwise the structured step is appended.
Consequently a running thought followed by a plan event yields exactly one
step, of kind plan. -/
theorem c2_structured_replace_or_append (k : TraceKind) (data : JSVal) (m : Message) :
    ((∃ last, m.thoughts.getLast? = some last ∧ last.type = .thought ∧ last.status = .running) →
      (applyTraceEvent k data m).thoughts =
        m.thoughts.dropLast ++
          [{ type := stepTypeOf k, content := jsonStringify (contentObjOf k data),
             status := .completed }] ∧
      (applyTraceEvent k data m).thoughts.length = m.thoughts.length) ∧
    ((¬ ∃ last, m.thoughts.getLast? = some last ∧ last.type = .thought ∧ last.status = .running) →
      (applyTraceEvent k data m).thoughts =
        m.thoughts ++
          [{ type := stepTypeOf k, content := jsonStringify (contentObjOf k data),
             node := getField data "node", status := .completed }]) ∧
    (processEvents [dThoughtEv, dPlanEv] (initialAssistantMessage "1")).thoughts.map
        (fun s => (s.type, s.status)) = [(.plan, .completed)] := by
  refine ⟨?_, ?_, by decide⟩
  · rintro ⟨last, hl, ht, hs⟩
    have hrw :
        (applyTraceEvent k data m).thoughts =
          updateLast
            (fun _ =>
              { type := stepTypeOf k, content := jsonStringify (contentObjOf k data),
                status := .completed })
            m.thoughts := by
      unfold applyTraceEvent
      rw [hl]
      simp [ht, hs]
    constructor
    · rw [hrw, updateLast_of_getLast? _ _ _ hl]
    · rw [hrw, updateLast_length]
  · intro hno
    unfold applyTraceEvent
    cases hl : m.thoughts.getLast? with
    | none => simp
    | some last =>
      have hcond : ¬ (last.type = .thought ∧ last.status = .running) := by
        intro ⟨ht, hs⟩
        exact hno ⟨last, hl, ht, hs⟩
      simp [hcond]

/-- C2 witness: the replace branch applied to a message whose single step
is a running thought. -/
theorem c2_structured_replace_or_append_witness :
    (applyTraceEvent .plan dPlanEv mThoughtRunning).thoughts =
      mThoughtRunning.thoughts.dropLast ++
        [{ type := stepTypeOf .plan, content := jsonStringify (contentObjOf .plan dPlanEv),
           status := .completed }] :=
  ((c2_structured_replace_or_append .plan dPlanEv mThoughtRunning).1
    ⟨{ type := .thought, content := "\x7b", status := .running }, rfl, rfl, rfl⟩).1

/-- C3 counterexample.  The claim asserts that a token event completes the
last step exactly when it is a thought, and that a running tool call last
step keeps its status.  On a message whose last step is a running tool
call, a token event sets that step to completed. -/
theorem c3_token_completes_tool_cex :
    ((applyToken (.str "Buy") mToolRunning).thoughts.map (fun s => s.status)) =
        [.completed] ∧
      (StepStatus.completed : StepStatus) ≠ .running := by
  exact ⟨by decide, by decide⟩

/-- C3 (amended).  A token event appends its payload to the message's text
content and completes the last trace step whenever that step is running,
regardless of its kind (in particular a running tool call is also forced
to completed); a non-running or absent last step leaves the step list
unchanged. -/
theorem c3_token_behavior (content : JSVal) (m : Message) :
    (applyToken content m).content = m.content ++ jsToString content ∧
    (m.thoughts.getLast? = none → (applyToken content m).thoughts = m.thoughts) ∧
    (∀ l, m.thoughts.getLast? = some l → l.status = .running →
      (applyToken content m).thoughts =
        updateLast (fun x => { x with status := .completed }) m.thoughts) ∧
    (∀ l, m.thoughts.getLast? = some l → ¬ l.status = .running →
      (applyToken content m).thoughts = m.thoughts) := by
  refine ⟨?_, ?_, ?_, ?_⟩
  · unfold applyToken
    cases hl : m.thoughts.getLast? with
    | none => rfl
    | some l => by_cases hs : l.status = .running <;> simp [hs]
  · intro hl
    unfold applyToken
    rw [hl]
  · intro l hl hs
    unfold applyToken
    rw [hl]
    simp [hs]
  · intro l hl hs
    unfold applyToken
    rw [hl]
    simp [hs]

/-- C3 witness: the completes-any-running-last-step conjunct applied to a
message whose last step is a running tool call. -/
theorem c3_token_behavior_witness :
    (applyToken (.str "Buy") mToolRunning).thoughts =
      updateLast (fun x => { x with status := .completed }) mToolRunning.thoughts :=
  (c3_token_behavior (.str "Buy") mToolRunning).2.2.1
    { type := .tool, content := "c", toolName := .str "web_search", status := .running }
    rfl rfl

/-- C4 counterexample.  The claim asserts that tool_end completes the most
recently pushed running tool step even when later non-tool steps were
pushed after it.  After tool_start followed by a thought event, the
tool_end event leaves the running tool step running (the event is dropped
because only the last step is examined). -/
theorem c4_tool_end_cex :
    (processEvents [dToolStartEv, dThoughtEv, dToolEndEv]
          (initialAssistantMessage "1")).thoughts.map (fun s => (s.type, s.status)) =
        [(.tool, .running), (.thought, .running)] ∧
      (StepStatus.running : StepStatus) ≠ .completed := by
  exact ⟨by decide, by decide⟩

/-- C4 (amended).  A tool_end event completes the last step and attaches
the output only when that last step itself is a tool call in running
state; in every other case (no steps, or a last step that is not a running
tool call, even if a running tool call exists earlier in the list) the
event is dropped: the message is unchanged, no orphan step is created and
processing cannot crash. -/
theorem c4_tool_end_behavior (output : JSVal) (m : Message) :
    (∀ l, m.thoughts.getLast? = some l → l.type = .tool → l.status = .running →
      (applyToolEnd output m).thoughts =
        updateLast (fun x => { x with status := .completed, toolOutput := output })
          m.thoughts) ∧
    (∀ l, m.thoughts.getLast? = some l → ¬ (l.type = .tool ∧ l.status = .running) →
      applyToolEnd output m = m) ∧
    (m.thoughts.getLast? = none → applyToolEnd output m = m) := by
  refine ⟨?_, ?_, ?_⟩
  · intro l hl ht hs
    unfold applyToolEnd
    rw [hl]
    simp [ht, hs]
  · intro l hl hc
    unfold applyToolEnd
    rw [hl]
    simp [hc]
  · intro hl
    unfold applyToolEnd
    rw [hl]

/-- C4 witness: the drop branch applied to a message whose last step is a
running thought (with a running tool call earlier in the list). -/
theorem c4_tool_end_behavior_witness :
    applyToolEnd (.str "ok")
        (processEvents [dToolStartEv, dThoughtEv] (initialAssistantMessage "1")) =
      processEvents [dToolStartEv, dThoughtEv] (initialAssistantMessage "1") :=
  (c4_tool_end_behavior (.str "ok")
        (processEvents [dToolStartEv, dThoughtEv] (initialAssistantMessage "1"))).2.1
    { type := .thought, content := "\x7b", status := .running }
    rfl (by decide)

/-- The scenario-B record of the spec, delivered in a single chunk. -/
def tokenChunkWhole : String := "data: \x7b\"type\":\"token\",\"content\":\"hi\"\x7d\n"

/-- First fragment of the scenario-B record, cut inside the JSON payload. -/
def tokenChunkFragA : String := "data: \x7b\"type\":\"tok"

/-- Second fragment of the scenario-B record. -/
def tokenChunkFragB : String := "en\",\"content\":\"hi\"\x7d\n"

/-- C5 counterexample.  The claim asserts that the decoder buffers a
trailing partial line so that chunk boundaries cannot change the emitted
events, and that the scenario-B split still yields exactly one token
event.  Delivered whole, the record yields one token record; split at the
scenario-B boundary it yields none. -/
theorem c5_split_record_cex :
    streamDatas [tokenChunkWhole] =
        [.obj [("type", .str "token"), ("content", .str "hi")]] ∧
      streamDatas [tokenChunkFragA, tokenChunkFragB] = [] ∧
      ([JSVal.obj [("type", .str "token"), ("content", .str "hi")]] : List JSVal) ≠ [] := by
  refine ⟨rfl, rfl, by simp⟩

/-- C5 (amended).  The read loop decodes every chunk independently — the
records of a chunked delivery are exactly the concatenation of the
per-chunk decodes, with no carry-over buffer — so a record whose line is
split across a chunk boundary is dropped entirely: in scenario B the first
fragment's payload fails JSON.parse and is swallowed, the second fragment
lacks the data marker and is skipped, and no token event is emitted. -/
theorem c5_chunks_decoded_independently (a b : String) :
    streamDatas [a, b] = chunkToDatas a ++ chunkToDatas b ∧
      streamDatas [tokenChunkFragA, tokenChunkFragB] = [] := by
  refine ⟨?_, rfl⟩
  simp [streamDatas]

/-- A message part-way through streaming: some answer text has arrived and
a tool step is still running. -/
def mPartial : Message :=
  { id := "1", role := "assistant", content := "The outlook", isStreaming := true,
    thoughts :=
      [{ type := .tool, content := "c", toolName := .str "web_search", status := .running }] }

/-- C7 counterexample.  The claim asserts that on a transport error the
partial text content accumulated so far is preserved.  The catch block
overwrites the accumulated text with the generic apology. -/
theorem c7_partial_text_cex :
    (applyCatch mPartial).content = errorText ∧ errorText ≠ "The outlook" := by
  exact ⟨rfl, by decide⟩

/-- C7 (amended).  On a transport error the assistant message becomes
terminal — isStreaming is false and its content is the generic apology
string — but the accumulated partial text is overwritten by the apology,
not preserved; the trace steps are kept unchanged. -/
theorem c7_catch_behavior (m : Message) :
    (applyCatch m).content = errorText ∧
      (applyCatch m).isStreaming = false ∧
      (applyCatch m).thoughts = m.thoughts := by
  exact ⟨rfl, rfl, rfl⟩

/-- C8 counterexample.  The claim asserts that finalization forces every
step still running to completed, leaving no running step.  Finalizing a
message whose step is still running leaves that step running. -/
theorem c8_finalize_cex :
    (finalizeMessage mToolRunning).isStreaming = false ∧
      ¬ countRunning (finalizeMessage mToolRunning).thoughts = 0 := by
  exact ⟨rfl, by decide⟩

/-- C8 (amended).  The finally block only clears the streaming flag: the
step list (hence every step's status) is left untouched, so a step that
was running when the transport ended remains running after finalization.
-/
theorem c8_finalize_behavior (m : Message) :
    (finalizeMessage m).isStreaming = false ∧
      (finalizeMessage m).thoughts = m.thoughts := by
  exact ⟨rfl, rfl⟩

theorem jsStrEq_getField_obj (t : JSVal) (k s : String)
    (h : jsStrEq (getField t k) s = true) : ∃ fs, t = .obj fs := by
  cases t with
  | obj fs => exact ⟨fs, rfl⟩
  | undefined => simp [getField, jsStrEq] at h
  | null => simp [getField, jsStrEq] at h
  | bool b => simp [getField, jsStrEq] at h
  | num tok => simp [getField, jsStrEq] at h
  | str s0 => simp [getField, jsStrEq] at h
  | arr l => simp [getField, jsStrEq] at h

theorem getFieldIn_setFieldIn (fs : List (String × JSVal)) (k : List Char) (x : JSVal) :
    getFieldIn (setFieldIn fs k x) k = x := by
  induction fs with
  | nil => simp [setFieldIn, getFieldIn]
  | cons p fs ih =>
    obtain ⟨k0, v0⟩ := p
    by_cases h : (k0.data == k) = true
    · simp [setFieldIn, getFieldIn, h]
    · simp only [setFieldIn, getFieldIn, h, if_false, Bool.false_eq_true, ite_false]
      exact ih

theorem getField_setField (fs : List (String × JSVal)) (k : String) (x : JSVal) :
    getField (setField (.obj fs) k x) k = x := by
  simp [setField, getField, getFieldIn_setFieldIn]

/-- C9.  A stored tool step whose rendered content is missing (falsy) but
which carries a toolInput is hydrated by loadSessionMessages with
formatToolInput — the same formatter the live tool_start handler uses — so
for the same tool name and input the reloaded step's content is exactly
the content the live stream path produces. -/
theorem c9_hydration_matches_live (t tool input : JSVal) (m : Message)
    (hty : jsStrEq (getField t "type") "tool" = true)
    (hco : jsFalsy (getField t "content") = true)
    (hin : jsTruthy (getField t "toolInput") = true)
    (hname : jsToString (jsOr (getField t "toolName") (.str "")) = jsToString tool)
    (hinput : getField t "toolInput" = input) :
    getField (hydrateStoredStep t) "content" =
        .str (formatToolInput (jsToString tool) input) ∧
      ((applyToolStart tool input m).thoughts.getLast?).map (fun s => s.content) =
        some (formatToolInput (jsToString tool) input) := by
  constructor
  · obtain ⟨fs, rfl⟩ := jsStrEq_getField_obj t "type" "tool" hty
    have hin' : jsTruthy input = true := hinput ▸ hin
    have hrw :
        hydrateStoredStep (.obj fs) =
          setField (.obj fs) "content" (.str (formatToolInput (jsToString tool) input)) := by
      unfold hydrateStoredStep
      rw [hinput, hname]
      rw [hinput] at hin
      simp [hty, hco, hin]
    rw [hrw]
    exact getField_setField fs "content" _
  · unfold applyToolStart
    rw [List.getLast?_concat]
    rfl

/-- A persisted tool step as the history endpoint returns it: no rendered
content, but toolName and toolInput present. -/
def storedToolStep : JSVal :=
  .obj [("type", .str "tool"), ("toolName", .str "web_search"),
        ("toolInput", .obj [("query", .str "NVDA")])]

/-- C9 witness: hydrating a concrete stored web-search step reproduces the
live content. -/
theorem c9_hydration_matches_live_witness :
    getField (hydrateStoredStep storedToolStep) "content" =
        .str (formatToolInput (jsToString (.str "web_search")) (.obj [("query", .str "NVDA")])) ∧
      ((applyToolStart (.str "web_search") (.obj [("query", .str "NVDA")])
            (initialAssistantMessage "1")).thoughts.getLast?).map (fun s => s.content) =
        some (formatToolInput (jsToString (.str "web_search")) (.obj [("query", .str "NVDA")])) :=
  c9_hydration_matches_live storedToolStep (.str "web_search") (.obj [("query", .str "NVDA")])
    (initialAssistantMessage "1") rfl rfl rfl rfl rfl

theorem parseObjRest_shape :
    ∀ fuel acc cs v r, parseObjRest fuel acc cs = some (v, r) → ∃ l, v = .obj l := by
  intro fuel
  induction fuel with
  | zero =>
    intro acc cs v r h
    exact absurd h (by simp [parseObjRest])
  | succ f ih =>
    intro acc cs v r h
    cases cs with
    | nil => exact absurd h (by simp [parseObjRest])
    | cons c rest =>
      unfold parseObjRest at h
      split at h
      · cases h
        exact ⟨acc, rfl⟩
      · split at h
        · split at h
          · cases h
          · exact ih _ _ _ _ h
        · cases h

theorem parseObjBody_shape :
    ∀ fuel cs v r, parseObjBody fuel cs = some (v, r) → ∃ l, v = .obj l := by
  intro fuel cs v r h
  cases fuel with
  | zero => exact absurd h (by simp [parseObjBody])
  | succ f =>
    cases cs with
    | nil => exact absurd h (by simp [parseObjBody])
    | cons c rest =>
      unfold parseObjBody at h
      split at h
      · cases h
        exact ⟨[], rfl⟩
      · split at h
        · cases h
        · exact parseObjRest_shape _ _ _ _ _ h

theorem parseArrRest_shape :
    ∀ fuel acc cs v r, parseArrRest fuel acc cs = some (v, r) → ∃ l, v = .arr l := by
  intro fuel
  induction fuel with
  | zero =>
    intro acc cs v r h
    exact absurd h (by simp [parseArrRest])
  | succ f ih =>
    intro acc cs v r h
    cases cs with
    | nil => exact absurd h (by simp [parseArrRest])
    | cons c rest =>
      unfold parseArrRest at h
      split at h
      · cases h
        exact ⟨acc, rfl⟩
      · split at h
        · split at h
          · cases h
          · exact ih _ _ _ _ h
        · cases h

theorem parseArrBody_shape :
    ∀ fuel cs v r, parseArrBody fuel cs = some (v, r) → ∃ l, v = .arr l := by
  intro fuel cs v r h
  cases fuel with
  | zero => exact absurd h (by simp [parseArrBody])
  | succ f =>
    cases cs with
    | nil => exact absurd h (by simp [parseArrBody])
    | cons c rest =>
      unfold parseArrBody at h
      split at h
      · cases h
        exact ⟨[], rfl⟩
      · split at h
        · cases h
        · exact parseArrRest_shape _ _ _ _ _ h

theorem parseVal_str_inv :
    ∀ fuel cs t r, parseVal fuel cs = some (.str t, r) →
      ∃ c rest chs, cs = c :: rest ∧
        parseStrBody (rest.length + 1) rest = some (chs, r) ∧ t = String.mk chs := by
  intro fuel cs t r h
  cases fuel with
  | zero => exact absurd h (by simp [parseVal])
  | succ f =>
    cases cs with
    | nil => exact absurd h (by simp [parseVal])
    | cons c rest =>
      unfold parseVal at h
      split at h
      · split at h
        · cases h
        · next s0 r0 heq =>
          cases h
          exact ⟨c, rest, s0, rfl, heq, rfl⟩
      · split at h
        · obtain ⟨l, hl⟩ := parseObjBody_shape _ _ _ _ h
          cases hl
        · split at h
          · obtain ⟨l, hl⟩ := parseArrBody_shape _ _ _ _ h
            cases hl
          · split at h
            · split at h
              · cases h
              · cases h
            · split at h
              · split at h
                · cases h
                · cases h
              · split at h
                · split at h
                  · cases h
                  · cases h
                · split at h
                  · split at h
                    · cases h
                    · cases h
                  · cases h

theorem parseVal_num_inv :
    ∀ fuel cs t r, parseVal fuel cs = some (.num t, r) →
      t.data = cs.takeWhile isNumChar ∧ validNum t.data = true := by
  intro fuel cs t r h
  cases fuel with
  | zero => exact absurd h (by simp [parseVal])
  | succ f =>
    cases cs with
    | nil => exact absurd h (by simp [parseVal])
    | cons c rest =>
      unfold parseVal at h
      split at h
      · split at h
        · cases h
        · cases h
      · split at h
        · obtain ⟨l, hl⟩ := parseObjBody_shape _ _ _ _ h
          cases hl
        · split at h
          · obtain ⟨l, hl⟩ := parseArrBody_shape _ _ _ _ h
            cases hl
          · split at h
            · split at h
              · cases h
              · cases h
            · split at h
              · split at h
                · cases h
                · cases h
              · split at h
                · split at h
                  · cases h
                  · cases h
                · split at h
                  · split at h
                    · next hv2 =>
                      cases h
                      exact ⟨rfl, hv2⟩
                    · cases h
                  · cases h

theorem escDecode_len (e : Char) (rest : List Char) (d : Char) (r : List Char)
    (h : escDecode e rest = some (d, r)) : r.length ≤ rest.length := by
  unfold escDecode at h
  split at h
  · cases h; exact le_refl _
  · split at h
    · cases h; exact le_refl _
    · split at h
      · cases h; exact le_refl _
      · split at h
        · cases h; exact le_refl _
        · split at h
          · cases h; exact le_refl _
          · split at h
            · cases h; exact le_refl _
            · split at h
              · cases h; exact le_refl _
              · split at h
                · cases h; exact le_refl _
                · split at h
                  · split at h
                    · split at h
                      · cases h
                        simp
                        omega
                      · cases h
                    · cases h
                  · cases h

theorem parseStrBody_len :
    ∀ fuel cs chs r, parseStrBody fuel cs = some (chs, r) →
      chs.length + r.length + 1 ≤ cs.length := by
  intro fuel
  induction fuel with
  | zero =>
    intro cs chs r h
    exact absurd h (by simp [parseStrBody])
  | succ f ih =>
    intro cs chs r h
    cases cs with
    | nil => exact absurd h (by simp [parseStrBody])
    | cons c rest =>
      unfold parseStrBody at h
      split at h
      · cases h
        simp
      · split at h
        · split at h
          · cases h
          · split at h
            · cases h
            · next d rest3 hesc =>
              split at h
              · cases h
              · next s0 r0 hrec =>
                cases h
                have h1 := ih _ _ _ hrec
                have h2 := escDecode_len _ _ _ _ hesc
                simp at h1 ⊢
                omega
        · split at h
          · cases h
          · split at h
            · cases h
            · next s0 r0 hrec =>
              cases h
              have h1 := ih _ _ _ hrec
              simp at h1 ⊢
              omega

theorem skipWs_len (cs : List Char) : (skipWs cs).length ≤ cs.length := by
  induction cs with
  | nil => exact le_refl _
  | cons c cs ih =>
    show (List.dropWhile isWsC (c :: cs)).length ≤ (c :: cs).length
    rw [List.dropWhile_cons]
    by_cases h : isWsC c = true
    · simp only [h, if_true]
      have : (List.dropWhile isWsC cs).length ≤ cs.length := ih
      simp
      omega
    · simp [h]

/-- Key decreasing measure: a successful parse of a string that yields a
string yields a strictly shorter string (a string literal spends two
characters on its quotes and escapes never expand). -/
theorem jsonParse_str_shorter (s t : String) (h : jsonParse s = some (.str t)) :
    t.length < s.length := by
  unfold jsonParse at h
  split at h
  · cases h
  · next v rest hp =>
    split at h
    · cases h
      obtain ⟨c, rest0, chs, hcs, hbody, ht⟩ := parseVal_str_inv _ _ _ _ hp
      have h1 := parseStrBody_len _ _ _ _ hbody
      have h2 : (skipWs s.data).length ≤ s.data.length := skipWs_len _
      rw [hcs] at h2
      have h3 : t.length = chs.length := by rw [ht]; rfl
      have h4 : s.length = s.data.length := rfl
      simp at h2
      omega
    · cases h

/-- The fueled unfolding of safeParseJSON's string recursion is stable:
any fuel beyond the string length computes the same value. -/
theorem unwrapF_stable (fuel : Nat) (s : String) (hf : s.length < fuel) :
    unwrapF fuel s = unwrap s := by
  have main : ∀ N fuel s, s.length ≤ N → s.length < fuel →
      unwrapF fuel s = unwrapF (s.length + 1) s := by
    intro N
    induction N with
    | zero =>
      intro fuel s hN hf
      cases fuel with
      | zero => omega
      | succ f =>
        show unwrapF (f + 1) s = unwrapF (s.length + 1) s
        rw [unwrapF, unwrapF]
        cases h : jsonParse s with
        | none => rfl
        | some v =>
          cases v with
          | str t =>
            have := jsonParse_str_shorter s t h
            omega
          | undefined => rfl
          | null => rfl
          | bool b => rfl
          | num tok => rfl
          | arr l => rfl
          | obj fs => rfl
    | succ N ih =>
      intro fuel s hN hf
      cases fuel with
      | zero => omega
      | succ f =>
        rw [unwrapF, unwrapF]
        cases h : jsonParse s with
        | none => rfl
        | some v =>
          cases v with
          | str t =>
            by_cases hl : looksJson t = true
            · have hlt := jsonParse_str_shorter s t h
              have e1 : unwrapF f t = unwrapF (t.length + 1) t := by
                apply ih <;> omega
              have e2 : unwrapF s.length t = unwrapF (t.length + 1) t := by
                apply ih <;> omega
              simp [hl, e1, e2]
            · rw [Bool.not_eq_true] at hl
              simp [hl]
          | undefined => rfl
          | null => rfl
          | bool b => rfl
          | num tok => rfl
          | arr l => rfl
          | obj fs => rfl
  exact main s.length fuel s (le_refl _) hf

/-- C10.  safeParseJSON terminates on every input.  First conjunct: a
successful JSON.parse of a string that yields a string always yields a
strictly shorter string (the decreasing measure of safeParseJSON's
recursion).  Second conjunct: consequently the fueled unfolding of the
recursion is stable once the fuel exceeds the input length — unwrapF with
any sufficient fuel computes safeParseJSON's unwrapping, so the recursion
cannot run forever. -/
theorem c10_safeParseJSON_terminates :
    (∀ s t, jsonParse s = some (.str t) → t.length < s.length) ∧
      (∀ fuel s, s.length < fuel → unwrapF fuel s = unwrap s) :=
  ⟨fun s t h => jsonParse_str_shorter s t h, fun fuel s hf => unwrapF_stable fuel s hf⟩

/-- C10 witness: parsing the four-character literal string quote-h-i-quote
yields the two-character string, strictly shorter. -/
theorem c10_safeParseJSON_terminates_witness :
    ("hi" : String).length < ("\"hi\"" : String).length :=
  c10_safeParseJSON_terminates.1 "\"hi\"" "hi" rfl

/-- The common tail of safeParseJSON: what it does with the outcome of a
JSON.parse attempt on the coerced input. -/
def parseOutcome (orig : JSVal) : Option JSVal → JSVal
  | none => orig
  | some (.str t) => if looksJson t then unwrap t else .str t
  | some v => v

/-- Primitive values (neither object, array nor string). -/
def isPrimJS : JSVal → Bool
  | .undefined => true
  | .null => true
  | .bool _ => true
  | .num _ => true
  | _ => false

theorem spj_prim (v : JSVal) (hv : isPrimJS v = true) :
    safeParseJSON v = parseOutcome v (jsonParse (jsToString v)) := by
  cases v with
  | undefined => rfl
  | null => rfl
  | bool b => cases b <;> rfl
  | num t => rfl
  | str s => simp [isPrimJS] at hv
  | arr l => simp [isPrimJS] at hv
  | obj fs => simp [isPrimJS] at hv

theorem unwrap_eq (s : String) : unwrap s = parseOutcome (.str s) (jsonParse s) := by
  have h1 : unwrap s = unwrapF (s.length + 1) s := rfl
  rw [h1, unwrapF]
  cases h : jsonParse s with
  | none => simp [h, parseOutcome]
  | some v =>
    cases v with
    | str t =>
      simp only [h, parseOutcome]
      by_cases hl : looksJson t = true
      · simp only [hl, if_true]
        exact unwrapF_stable s.length t (jsonParse_str_shorter s t h)
      · rw [Bool.not_eq_true] at hl
        simp [hl]
    | undefined => simp [h, parseOutcome]
    | null => simp [h, parseOutcome]
    | bool b => simp [h, parseOutcome]
    | num tok => simp [h, parseOutcome]
    | arr l => simp [h, parseOutcome]
    | obj fs => simp [h, parseOutcome]

theorem unwrap_parse_none (s : String) (h : jsonParse s = none) : unwrap s = .str s := by
  rw [unwrap_eq, h]
  rfl

theorem unwrap_origin (s : String) :
    (unwrap s = .str s ∧ jsonParse s = none) ∨ ∃ s2, jsonParse s2 = some (unwrap s) := by
  have main : ∀ N s, (s : String).length ≤ N →
      (unwrap s = .str s ∧ jsonParse s = none) ∨ ∃ s2, jsonParse s2 = some (unwrap s) := by
    intro N
    induction N with
    | zero =>
      intro s hN
      rw [unwrap_eq]
      cases h : jsonParse s with
      | none => left; exact ⟨rfl, rfl⟩
      | some v =>
        cases v with
        | str t =>
          exact absurd (jsonParse_str_shorter s t h) (by omega)
        | undefined => right; exact ⟨s, by exact h⟩
        | null => right; exact ⟨s, by exact h⟩
        | bool b => right; exact ⟨s, by exact h⟩
        | num tok => right; exact ⟨s, by exact h⟩
        | arr l => right; exact ⟨s, by exact h⟩
        | obj fs => right; exact ⟨s, by exact h⟩
    | succ N ih =>
      intro s hN
      rw [unwrap_eq]
      cases h : jsonParse s with
      | none => left; exact ⟨rfl, rfl⟩
      | some v =>
        cases v with
        | str t =>
          by_cases hl : looksJson t = true
          · have hlt := jsonParse_str_shorter s t h
            rcases ih t (by omega) with ⟨hu, hn⟩ | ⟨s2, hs2⟩
            · right
              refine ⟨s, ?_⟩
              simp [parseOutcome, hl, hu]
              exact h
            · right
              refine ⟨s2, ?_⟩
              simp [parseOutcome, hl]
              exact hs2
          · right
            refine ⟨s, ?_⟩
            rw [Bool.not_eq_true] at hl
            simp [parseOutcome, hl]
            exact h
        | undefined => right; exact ⟨s, by exact h⟩
        | null => right; exact ⟨s, by exact h⟩
        | bool b => right; exact ⟨s, by exact h⟩
        | num tok => right; exact ⟨s, by exact h⟩
        | arr l => right; exact ⟨s, by exact h⟩
        | obj fs => right; exact ⟨s, by exact h⟩
  exact main s.length s (le_refl _)

theorem parseOutcome_origin (orig : JSVal) (src : String) :
    parseOutcome orig (jsonParse src) = orig ∨
      ∃ s2, jsonParse s2 = some (parseOutcome orig (jsonParse src)) := by
  cases h : jsonParse src with
  | none => left; rfl
  | some v =>
    cases v with
    | str t =>
      by_cases hl : looksJson t = true
      · rcases unwrap_origin t with ⟨hu, hn⟩ | ⟨s2, hs2⟩
        · right
          refine ⟨src, ?_⟩
          simp [parseOutcome, hl, hu]
          exact h
        · right
          refine ⟨s2, ?_⟩
          simp [parseOutcome, hl]
          exact hs2
      · right
        refine ⟨src, ?_⟩
        rw [Bool.not_eq_true] at hl
        simp [parseOutcome, hl]
        exact h
    | undefined => right; exact ⟨src, by exact h⟩
    | null => right; exact ⟨src, by exact h⟩
    | bool b => right; exact ⟨src, by exact h⟩
    | num tok => right; exact ⟨src, by exact h⟩
    | arr l => right; exact ⟨src, by exact h⟩
    | obj fs => right; exact ⟨src, by exact h⟩

theorem safeParseJSON_origin (p : JSVal) :
    safeParseJSON p = p ∨ ∃ s2, jsonParse s2 = some (safeParseJSON p) := by
  cases p with
  | obj fs => left; rfl
  | arr l => left; rfl
  | str s =>
    have he : safeParseJSON (.str s) = unwrap s := rfl
    rcases unwrap_origin s with ⟨hu, hn⟩ | ⟨s2, hs2⟩
    · left; rw [he, hu]
    · right; exact ⟨s2, by rw [he]; exact hs2⟩
  | undefined =>
    rw [spj_prim .undefined rfl]
    exact parseOutcome_origin .undefined (jsToString .undefined)
  | null =>
    rw [spj_prim .null rfl]
    exact parseOutcome_origin .null (jsToString .null)
  | bool b =>
    rw [spj_prim (.bool b) rfl]
    exact parseOutcome_origin (.bool b) (jsToString (.bool b))
  | num tok =>
    rw [spj_prim (.num tok) rfl]
    exact parseOutcome_origin (.num tok) (jsToString (.num tok))

theorem all_takeWhile (p : Char → Bool) (l : List Char) :
    (l.takeWhile p).all p = true := by
  induction l with
  | nil => rfl
  | cons c cs ih =>
    rw [List.takeWhile_cons]
    by_cases hc : p c = true
    · simp [hc, ih]
    · simp [hc]

theorem takeWhile_of_all (p : Char → Bool) (l : List Char) (h : l.all p = true) :
    l.takeWhile p = l := by
  induction l with
  | nil => rfl
  | cons c cs ih =>
    simp at h
    rw [List.takeWhile_cons]
    simp [h.1, ih (List.all_eq_true.mpr h.2)]

theorem dropWhile_of_all (p : Char → Bool) (l : List Char) (h : l.all p = true) :
    l.dropWhile p = [] := by
  induction l with
  | nil => rfl
  | cons c cs ih =>
    simp at h
    rw [List.dropWhile_cons]
    simp [h.1, ih (List.all_eq_true.mpr h.2)]

theorem validNum_head (l : List Char) (h : validNum l = true) :
    ∃ c rest, l = c :: rest ∧ (c = '-' ∨ c.isDigit = true) := by
  cases l with
  | nil => simp [validNum] at h
  | cons c rest =>
    refine ⟨c, rest, rfl, ?_⟩
    simp only [validNum] at h
    split at h
    · left; assumption
    · simp only [validNumCore] at h
      split at h
      · next h0 => right; rw [h0]; decide
      · split at h
        · next hd => right; exact hd
        · cases h

theorem numHead_ne (c : Char) (hc : c = '-' ∨ c.isDigit = true) :
    ¬ c = '"' ∧ ¬ c = lbrace ∧ ¬ c = '[' ∧ ¬ c = 't' ∧ ¬ c = 'f' ∧ ¬ c = 'n' ∧
      isWsC c = false := by
  rcases hc with rfl | hd
  · exact ⟨by decide, by decide, by decide, by decide, by decide, by decide, by decide⟩
  · have ne : ∀ d : Char, d.isDigit = false → ¬ c = d := by
      intro d hdig h
      rw [h] at hd
      rw [hd] at hdig
      cases hdig
    refine ⟨ne _ (by decide), ne _ (by decide), ne _ (by decide), ne _ (by decide),
      ne _ (by decide), ne _ (by decide), ?_⟩
    have w1 := ne ' ' (by decide)
    have w2 := ne '\t' (by decide)
    have w3 := ne '\n' (by decide)
    have w4 := ne '\r' (by decide)
    simp [isWsC, w1, w2, w3, w4]

theorem parseVal_numToken (f : Nat) (hf : 1 ≤ f) (c : Char) (rest : List Char)
    (hc : c = '-' ∨ c.isDigit = true)
    (hall : (c :: rest).all isNumChar = true)
    (hval : validNum (c :: rest) = true) :
    parseVal f (c :: rest) = some (.num (String.mk (c :: rest)), []) := by
  obtain ⟨n1, n2, n3, n4, n5, n6, nws⟩ := numHead_ne c hc
  cases f with
  | zero => omega
  | succ f0 =>
    unfold parseVal
    rw [if_neg n1, if_neg n2, if_neg n3, if_neg n4, if_neg n5, if_neg n6, if_pos hc]
    rw [takeWhile_of_all _ _ hall, hval, dropWhile_of_all _ _ hall]

theorem jsonParse_some_inv (s : String) (v : JSVal) (h : jsonParse s = some v) :
    ∃ rest, parseVal (2 * s.data.length + 4) (skipWs s.data) = some (v, rest) := by
  unfold jsonParse at h
  split at h
  · cases h
  · next v0 rest hp =>
    split at h
    · cases h
      exact ⟨rest, hp⟩
    · cases h

theorem jsonParse_num_props (s t : String) (h : jsonParse s = some (.num t)) :
    t.data.all isNumChar = true ∧ validNum t.data = true := by
  obtain ⟨rest, hp⟩ := jsonParse_some_inv s (.num t) h
  obtain ⟨h1, h2⟩ := parseVal_num_inv _ _ _ _ hp
  refine ⟨?_, h2⟩
  rw [h1]
  exact all_takeWhile _ _

theorem jsonParse_numToken (t : String) (hall : t.data.all isNumChar = true)
    (hval : validNum t.data = true) : jsonParse t = some (.num t) := by
  obtain ⟨c, rest, hd, hc⟩ := validNum_head t.data hval
  obtain ⟨n1, n2, n3, n4, n5, n6, nws⟩ := numHead_ne c hc
  have hs : skipWs t.data = t.data := by
    rw [hd]
    show List.dropWhile isWsC (c :: rest) = c :: rest
    rw [List.dropWhile_cons, nws]
    simp
  unfold jsonParse
  rw [hs, hd]
  rw [parseVal_numToken (2 * (c :: rest).length + 4) (by omega) c rest hc (hd ▸ hall)
    (hd ▸ hval)]
  rw [← hd]
  rfl

theorem spj_num_fixpoint (t s2 : String) (h : jsonParse s2 = some (.num t)) :
    safeParseJSON (.num t) = .num t := by
  obtain ⟨hall, hval⟩ := jsonParse_num_props s2 t h
  have hre := jsonParse_numToken t hall hval
  have he : safeParseJSON (.num t) = parseOutcome (.num t) (jsonParse (jsToString (.num t))) :=
    spj_prim (.num t) rfl
  rw [he]
  have hjs : jsToString (.num t) = t := rfl
  rw [hjs, hre]
  rfl

/-- C6 counterexample.  The claim asserts safeParseJSON is idempotent on
every input.  On the four-character string quote-4-2-quote, one
application yields the two-character string 4-2, but a second application
parses that to the number 42. -/
theorem c6_idempotent_cex :
    safeParseJSON (safeParseJSON (.str "\"42\"")) ≠ safeParseJSON (.str "\"42\"") := by
  have h1 : safeParseJSON (safeParseJSON (.str "\"42\"")) = .num "42" := rfl
  have h2 : safeParseJSON (.str "\"42\"") = .str "42" := rfl
  rw [h1, h2]
  simp

/-- C6 (amended).  safeParseJSON is idempotent on every input whose
normalized result is not a string that JSON.parse itself accepts: objects
and arrays are returned as-is, numbers, booleans, null and undefined
re-normalize to themselves, and a result string on which JSON.parse fails
is returned unchanged again.  Only a result string that still parses as
JSON (a doubly-encoded scalar such as the string 4-2) is normalized
further by a second application. -/
theorem c6_idempotent_unless_parseable_string (p : JSVal)
    (H : ∀ s, safeParseJSON p = .str s → jsonParse s = none) :
    safeParseJSON (safeParseJSON p) = safeParseJSON p := by
  rcases safeParseJSON_origin p with hfix | ⟨s2, hs2⟩
  · simp only [hfix]
  · cases hv : safeParseJSON p with
    | obj fs => rfl
    | arr l => rfl
    | undefined => rfl
    | null => rfl
    | bool b => cases b <;> rfl
    | num tok =>
      rw [hv] at hs2
      exact spj_num_fixpoint tok s2 hs2
    | str s =>
      have hn := H s hv
      have he : safeParseJSON (.str s) = unwrap s := rfl
      rw [he, unwrap_parse_none s hn]

/-- C6 witness: a plain word normalizes to itself (its parse fails), and
the amended idempotence theorem applies to it. -/
theorem c6_idempotent_unless_parseable_string_witness :
    (∀ s, safeParseJSON (.str "hello") = .str s → jsonParse s = none) ∧
      safeParseJSON (safeParseJSON (.str "hello")) = safeParseJSON (.str "hello") := by
  have H : ∀ s, safeParseJSON (.str "hello") = .str s → jsonParse s = none := by
    intro s hs
    have h0 : safeParseJSON (.str "hello") = .str "hello" := rfl
    rw [h0] at hs
    cases hs
    rfl
  exact ⟨H, c6_idempotent_unless_parseable_string (.str "hello") H⟩
